import Mathlib

/-!
Formal model of the whisper-web long-form transcription pipeline.

Shallow embedding of the windowing / overlap-reconciliation / segment-normalization
logic of `src/server/app/video_transcription.py` (class `VideoTranscriber`), over the
`TranscriptionSegment` data model of `src/server/app/models.py`.

Modelling conventions:
* Python `float` times are embedded as `ℚ` (the claims are about exact arithmetic
  relations, not floating-point rounding).
* Python exceptions are embedded as `Except`: the ASR + alignment call
  `transcribe_audio` is an oracle `ℚ → ℚ → Except ε (List Segment)` keyed by the
  absolute start/end of the audio slice it receives; `raise` is `Except.error`.
* Python `list.sort(key=...)` is a stable sort by key; it is embedded as
  `List.insertionSort` on the key order, which is likewise stable.
* The `while` loop of `process_audio_segments` is embedded with explicit fuel
  (the loop diverges when `overlap_duration >= segment_duration`, so it is not
  a total function of its other arguments); `windowFuel` is shown to be enough
  fuel whenever `0 < overlap < segment_duration`.
-/

namespace VideoTranscriber

/-- One word of `TranscriptionSegment.words`: a dict
`{word, start, end, score}` in the source. -/
structure Word where
  word : String
  start : ℚ
  «end» : ℚ
  score : ℚ
  deriving DecidableEq

/-- `TranscriptionSegment` of `src/server/app/models.py`:
`id : int`, `start/end : float`, `text : str`, `words : list`. -/
structure Segment where
  id : ℕ
  start : ℚ
  «end» : ℚ
  text : String
  words : List Word
  deriving DecidableEq

/-- Python's `a in b` on strings is a substring test. -/
def strIn (needle hay : String) : Bool :=
  decide (needle.data <:+: hay.data)

/-- Stable sort by `start`, embedding `sorted(segments, key=lambda s: s.start)`
(line 518) and `segments.sort(key=lambda x: x.start)` (line 183). -/
def sortByStart (segments : List Segment) : List Segment :=
  List.insertionSort (fun a b => a.start ≤ b.start) segments

/-- `for i, segment in enumerate(merged): segment.id = i` (lines 556-557),
starting from index `i`. -/
def reassignFrom (i : ℕ) : List Segment → List Segment
  | [] => []
  | s :: rest => { s with id := i } :: reassignFrom (i + 1) rest

/-- Dense 0-based id reassignment at the end of `_merge_overlapping_segments`. -/
def reassignIds (segments : List Segment) : List Segment :=
  reassignFrom 0 segments

/-- The duplicate-word guard of line 541:
`any(w["word"] == word["word"] and abs(w["start"] - word["start"]) < 0.1 for w in current.words)`. -/
def wordDup (cur : List Word) (w : Word) : Bool :=
  cur.any fun v => v.word == w.word && decide (|v.start - w.start| < 0.1)

/-- The merge branch of `_merge_overlapping_segments` (lines 530-542): extend the
end, append the text unless it is already a substring, append the non-duplicate
words. -/
def mergeSegs (current next : Segment) : Segment :=
  { current with
    «end» := max current.«end» next.«end»,
    text := if strIn next.text current.text then current.text
            else current.text ++ " " ++ next.text,
    words := current.words ++ next.words.filter fun w => ! wordDup current.words w }

/-- The fold of `_merge_overlapping_segments` over the sorted tail
(lines 520-553), with `current` the running segment. -/
def mergeLoop (current : Segment) : List Segment → List Segment
  | [] => [current]
  | next :: rest =>
    if current.«end» ≥ next.start then
      if current.«end» - next.start > 0.5 * (next.«end» - next.start) then
        mergeLoop (mergeSegs current next) rest
      else
        current :: mergeLoop next rest
    else
      current :: mergeLoop next rest

/-- `_merge_overlapping_segments` (lines 504-559). -/
def merge_overlapping_segments (segments : List Segment) : List Segment :=
  match sortByStart segments with
  | [] => []
  | c :: rest => reassignIds (mergeLoop c rest)

/-- `MIN_DURATION` of `optimize_segments` (line 186). -/
def MIN_DURATION : ℚ := 1.0

/-- `MAX_DURATION` of `optimize_segments` (line 187). -/
def MAX_DURATION : ℚ := 5.0

/-- The punctuation set `"。，！？.!?"` of `_split_long_segment` (line 249). -/
def punctChars : List Char := ['。', '，', '！', '？', '.', '!', '?']

/-- The walk of `_split_long_segment` over the segment's words (lines 240-263),
carrying the `current_part` (texts) and `current_words` accumulators; a part is
closed after any word containing a punctuation character, and the trailing
accumulators form a final part. -/
def splitCore : List Word → List String → List Word → List (String × List Word)
  | [], part, curWords =>
    if part.isEmpty then [] else [(String.join part, curWords)]
  | w :: ws, part, curWords =>
    let part' := part ++ [w.word]
    let curWords' := curWords ++ [w]
    if punctChars.any fun p => w.word.data.contains p then
      if part'.isEmpty then splitCore ws part' curWords'
      else (String.join part', curWords') :: splitCore ws [] []
    else
      splitCore ws part' curWords'

/-- The value path of `_split_long_segment` (lines 228-278): build the parts,
drop empty-word parts, and create one segment per part with `start`/`end` taken
from the first/last word. The source constructs `TranscriptionSegment` without
the required `id` field at line 271 (`models.py` line 11 has no default), which
pydantic rejects, so the real constructor call raises; this idealized variant
uses `id := 0` instead. The claims below evaluate it only on zero-word segments
(where no constructor runs and code and model agree on the result `[]`);
`split_long_segment_checked` models the error path. -/
def split_long_segment (segment : Segment) : List Segment :=
  (splitCore segment.words [] []).filterMap fun p =>
    match p.2 with
    | [] => none
    | w :: ws =>
      some { id := 0,
             start := w.start,
             «end» := ((w :: ws).getLast (List.cons_ne_nil w ws)).«end»,
             text := p.1,
             words := p.2 }

/-- The result-building loop of `_split_long_segment` (lines 266-276) with
pydantic's required-field validation modelled: `TranscriptionSegment` requires
`id` (`models.py` line 11) and the construction at line 271 omits it, so the
first part with a non-empty word list raises `ValidationError` (re-raised by
the `except` block at lines 280-282); a part with an empty word list is
skipped by the `continue` at lines 268-269. -/
def splitBuild : List (String × List Word) → Except String (List Segment)
  | [] => .ok []
  | p :: ps =>
    match p.2 with
    | [] => splitBuild ps
    | _ :: _ => .error "ValidationError: id field required"

/-- `_split_long_segment` (lines 228-278) with the missing-`id` error path
modelled: build the parts, then run the constructor loop, which raises at the
first words-bearing part. -/
def split_long_segment_checked (segment : Segment) : Except String (List Segment) :=
  splitBuild (splitCore segment.words [] [])

/-- The fold of `optimize_segments` over the sorted tail (lines 189-220), with
`current` the running segment: merge a too-short `current` into the next segment
when the gap is `< 0.3`, otherwise flush `current` (splitting it when it is
longer than `MAX_DURATION`) and advance. -/
def optLoop (current : Segment) : List Segment → List Segment
  | [] =>
    if current.«end» - current.start > MAX_DURATION then split_long_segment current
    else [current]
  | segment :: rest =>
    if current.«end» - current.start < MIN_DURATION ∧
        segment.start - current.«end» < 0.3 then
      optLoop { current with
                «end» := segment.«end»,
                text := current.text ++ " " ++ segment.text,
                words := current.words ++ segment.words } rest
    else
      (if current.«end» - current.start > MAX_DURATION then split_long_segment current
       else [current]) ++ optLoop segment rest

/-- `optimize_segments` (lines 169-226). -/
def optimize_segments (segments : List Segment) : List Segment :=
  match sortByStart segments with
  | [] => []
  | c :: rest => optLoop c rest

/-- The window schedule of the `while segment_start < total_duration` loop of
`process_audio_segments` (lines 396-422), with explicit fuel: emit the window
`(start, min (start + segdur) total)`, stop once the window end reaches `total`,
else continue from `end - overlap`. -/
def windowLoop (total segdur overlap : ℚ) : ℕ → ℚ → List (ℚ × ℚ)
  | 0, _ => []
  | fuel + 1, start =>
    if start < total then
      let e := min (start + segdur) total
      if total ≤ e then [(start, e)]
      else (start, e) :: windowLoop total segdur overlap fuel (e - overlap)
    else []

/-- Enough fuel for `windowLoop` from `start = 0` whenever
`0 < overlap < segdur`: each non-final step advances `start` by exactly
`segdur - overlap`. -/
def windowFuel (total segdur overlap : ℚ) : ℕ :=
  (⌈(total - segdur) / (segdur - overlap)⌉).toNat + 1

/-- The windows processed by `process_audio_segments`: the direct-processing
branch (line 388) handles the whole buffer as a single window `(0, total)`;
otherwise the windows of the segmented loop. -/
def windows_of (total segdur overlap : ℚ) : List (ℚ × ℚ) :=
  if total ≤ segdur then [(0, total)]
  else windowLoop total segdur overlap (windowFuel total segdur overlap) 0

/-- The transcription loop of `process_audio_segments` (lines 395-422) in the
exception monad: `tr start e` is the `transcribe_audio` call on the audio slice
`[start, e)` (with `offset = start`); an exception propagates (the `except`
blocks of lines 429-431 and 500-502 re-raise). -/
def transcribeLoop (total segdur overlap : ℚ)
    (tr : ℚ → ℚ → Except ε (List Segment)) : ℕ → ℚ → Except ε (List Segment)
  | 0, _ => .ok []
  | fuel + 1, start =>
    if start < total then
      let e := min (start + segdur) total
      match tr start e with
      | .error err => .error err
      | .ok segs =>
        if total ≤ e then .ok segs
        else
          match transcribeLoop total segdur overlap tr fuel (e - overlap) with
          | .error err => .error err
          | .ok rest => .ok (segs ++ rest)
    else .ok []

/-- `process_audio_segments` (lines 367-431): direct processing when
`total_duration <= segment_duration` (no merge applied on that path), otherwise
the windowed loop followed by `_merge_overlapping_segments`. -/
def process_audio_segments (total segdur overlap : ℚ)
    (tr : ℚ → ℚ → Except ε (List Segment)) : Except ε (List Segment) :=
  if total ≤ segdur then tr 0 total
  else
    match transcribeLoop total segdur overlap tr (windowFuel total segdur overlap) 0 with
    | .error err => .error err
    | .ok allSegments => .ok (merge_overlapping_segments allSegments)

/-- The language-resolution step of `transcribe_audio` (lines 446-448):
`if language == "auto" or language is None: language = self.detect_language(audio)`,
with `detect s e` the detection result on the audio slice `[s, e)`. -/
def resolve_language (detect : ℚ → ℚ → String) (language : Option String)
    (s e : ℚ) : String :=
  match language with
  | none => detect s e
  | some l => if l = "auto" then detect s e else l

/-- The language actually used for each window of `process_audio_segments`:
every `transcribe_audio` call receives the caller's unmodified `language`
argument (line 412), and resolves it against its own window's audio. -/
def languages_used (total segdur overlap : ℚ) (detect : ℚ → ℚ → String)
    (language : Option String) : List String :=
  (windows_of total segdur overlap).map fun w =>
    resolve_language detect language w.1 w.2

/-! Concrete fixtures used by witnesses and counterexamples. -/

/-- Ordering counterexample input: `[0,1)` kept next to `[0.9,2)`. -/
def oseg1 : Segment := { id := 0, start := 0, «end» := 1, text := "a", words := [] }

/-- Ordering counterexample input: overlaps `oseg1` by `0.1`, which is not more
than half of its own duration. -/
def oseg2 : Segment := { id := 1, start := 0.9, «end» := 2, text := "b", words := [] }

/-- Reconciliation-scenario window-1 segment `[8.0, 9.5)`. -/
def mseg1 : Segment := { id := 0, start := 8, «end» := 9.5, text := "hello world", words := [] }

/-- Reconciliation-scenario window-2 segment `[8.3, 9.8)`. -/
def mseg2 : Segment := { id := 1, start := 8.3, «end» := 9.8, text := "hello world there", words := [] }

/-- A transcription oracle that raises exactly on the second window of a
3-window schedule (`total=24, segdur=10, overlap=2` gives windows starting at
0, 8, 16). -/
def wFail : ℚ → ℚ → Except String (List Segment) :=
  fun s e => if s = 8 then .error "boom"
    else .ok [{ id := 0, start := s, «end» := e, text := "w", words := [] }]

/-- A transcription oracle that always succeeds with no segments. -/
def wOk : ℚ → ℚ → Except String (List Segment) :=
  fun _ _ => .ok []

/-- Word `[0,2)` of the word-consistency counterexample. -/
def vWordA : Word := { word := "a", start := 0, «end» := 2, score := 1 }

/-- Word `[1,1.5)` of the word-consistency counterexample. -/
def vWordB : Word := { word := "b", start := 1, «end» := 1.5, score := 1 }

/-- Word-consistency counterexample: consistent segment `[0,2)`. -/
def vsegA : Segment := { id := 0, start := 0, «end» := 2, text := "a", words := [vWordA] }

/-- Word-consistency counterexample: consistent segment `[1,1.5)`, mostly
contained in `vsegA`, so the two merge. -/
def vsegB : Segment := { id := 1, start := 1, «end» := 1.5, text := "b", words := [vWordB] }

/-- Validation witness: a words-bearing segment, on which the real split's
constructor call raises. -/
def c5seg : Segment := { id := 0, start := 0, «end» := 7, text := "a", words := [vWordA] }

/-- Validation witness: a zero-word segment, on which the split returns `[]`
without running the constructor. -/
def c5empty : Segment := { id := 1, start := 0, «end» := 1, text := "", words := [] }

/-- Already-normalized stream member `[0,2)`. -/
def nseg1 : Segment := { id := 0, start := 0, «end» := 2, text := "a", words := [] }

/-- Already-normalized stream member `[3,5)`. -/
def nseg2 : Segment := { id := 1, start := 3, «end» := 5, text := "b", words := [] }

/-- A zero-word segment longer than `MAX_DURATION`. -/
def zseg : Segment := { id := 0, start := 0, «end» := 6, text := "x", words := [] }

/-- An always-succeeding empty-result transcription oracle. -/
def trEmpty : ℚ → ℚ → Except String (List Segment) := fun _ _ => .ok []

/-- A detector whose result depends on the window it sees. -/
def dlang : ℚ → ℚ → String := fun s _ => if s = 0 then "en" else "zh"

/-- Order-dependence counterexample: `[0,1)`. -/
def pseg1 : Segment := { id := 0, start := 0, «end» := 1, text := "a", words := [] }

/-- Order-dependence counterexample: `[0,2)`, same start time as `pseg1`. -/
def pseg2 : Segment := { id := 1, start := 0, «end» := 2, text := "b", words := [] }

/-- Permutation-invariance witness: `[0,1)`. -/
def qseg1 : Segment := { id := 0, start := 0, «end» := 1, text := "a", words := [] }

/-- Permutation-invariance witness: `[2,3)`, distinct start time. -/
def qseg2 : Segment := { id := 1, start := 2, «end» := 3, text := "b", words := [] }

instance : IsTotal Segment (fun a b => a.start ≤ b.start) :=
  ⟨fun a b => le_total a.start b.start⟩

instance : IsTrans Segment (fun a b => a.start ≤ b.start) :=
  ⟨fun _ _ _ => le_trans⟩

/-! Helper lemmas. -/

/-- Merging keeps the running segment's start time. -/
theorem mergeSegs_start (current next : Segment) :
    (mergeSegs current next).start = current.start := rfl

/-- `mergeLoop` always returns a non-empty list whose head starts where the
running segment starts. -/
theorem mergeLoop_head :
    ∀ (rest : List Segment) (current : Segment),
      ∃ s t, mergeLoop current rest = s :: t ∧ s.start = current.start := by
  intro rest
  induction rest with
  | nil => exact fun current => ⟨current, [], rfl, rfl⟩
  | cons next rest ih =>
    intro current
    rw [mergeLoop]
    split_ifs with h1 h2
    · obtain ⟨s, t, hst, hs⟩ := ih (mergeSegs current next)
      exact ⟨s, t, hst, by rw [hs, mergeSegs_start]⟩
    · exact ⟨current, _, rfl, rfl⟩
    · exact ⟨current, _, rfl, rfl⟩

/-- `mergeLoop` preserves sortedness by start time. -/
theorem mergeLoop_chain :
    ∀ (rest : List Segment) (current : Segment),
      List.Chain' (fun a b => a.start ≤ b.start) (current :: rest) →
      List.Chain' (fun a b => a.start ≤ b.start) (mergeLoop current rest) := by
  intro rest
  induction rest with
  | nil => intro current _; simp [mergeLoop]
  | cons next rest ih =>
    intro current hc
    obtain ⟨h1, hc'⟩ := List.chain'_cons.mp hc
    rw [mergeLoop]
    split_ifs with hov hmerge
    · apply ih
      rw [List.chain'_cons']
      refine ⟨?_, (List.chain'_cons'.mp hc').2⟩
      intro y hy
      have := (List.chain'_cons'.mp hc').1 y hy
      exact le_trans (by rw [mergeSegs_start]; exact h1) this
    · obtain ⟨s, t, hst, hs⟩ := mergeLoop_head rest next
      rw [List.chain'_cons']
      constructor
      · intro y hy
        rw [hst] at hy
        simp at hy
        rw [← hy, hs]
        exact h1
      · exact ih next hc'
    · obtain ⟨s, t, hst, hs⟩ := mergeLoop_head rest next
      rw [List.chain'_cons']
      constructor
      · intro y hy
        rw [hst] at hy
        simp at hy
        rw [← hy, hs]
        exact h1
      · exact ih next hc'

/-- Reassigning ids does not change start times. -/
theorem reassignFrom_map_start :
    ∀ (l : List Segment) (i : ℕ),
      (reassignFrom i l).map (fun s => s.start) = l.map (fun s => s.start) := by
  intro l
  induction l with
  | nil => intro i; rfl
  | cons s rest ih => intro i; simp [reassignFrom, ih]

/-- Two permuted lists that are both strictly sorted by start time are equal. -/
theorem sorted_lt_unique :
    ∀ {l₁ l₂ : List Segment}, l₁.Perm l₂ →
      l₁.Pairwise (fun a b => a.start < b.start) →
      l₂.Pairwise (fun a b => a.start < b.start) → l₁ = l₂ := by
  intro l₁
  induction l₁ with
  | nil => intro l₂ hp _ _; exact (hp.nil_eq).symm ▸ rfl
  | cons a t₁ ih =>
    intro l₂ hp h1 h2
    cases l₂ with
    | nil => exact absurd hp.symm (by simp)
    | cons b t₂ =>
      by_cases hab : a = b
      · subst hab
        rw [ih (hp.cons_inv) (List.pairwise_cons.mp h1).2 (List.pairwise_cons.mp h2).2]
      · exfalso
        have ha : a ∈ b :: t₂ := hp.mem_iff.mp (List.mem_cons_self a t₁)
        have hat2 : a ∈ t₂ := by
          cases List.mem_cons.mp ha with
          | inl h => exact absurd h hab
          | inr h => exact h
        have hba : b.start < a.start := (List.pairwise_cons.mp h2).1 a hat2
        have hb : b ∈ a :: t₁ := hp.symm.mem_iff.mp (List.mem_cons_self b t₂)
        have hbt1 : b ∈ t₁ := by
          cases List.mem_cons.mp hb with
          | inl h => exact absurd h.symm hab
          | inr h => exact h
        have hab' : a.start < b.start := (List.pairwise_cons.mp h1).1 b hbt1
        exact lt_irrefl _ (lt_trans hba hab')

/-- Sorting by start is permutation-invariant when start times are pairwise
distinct. -/
theorem sortByStart_eq_of_perm {l₁ l₂ : List Segment} (hp : l₁.Perm l₂)
    (hd : l₁.Pairwise fun a b => a.start ≠ b.start) :
    sortByStart l₁ = sortByStart l₂ := by
  have hsym : ∀ {x y : Segment}, x.start ≠ y.start → y.start ≠ x.start :=
    fun h => h.symm
  have hp1 : (sortByStart l₁).Perm l₁ := List.perm_insertionSort _ l₁
  have hp2 : (sortByStart l₂).Perm l₂ := List.perm_insertionSort _ l₂
  have hd1 : (sortByStart l₁).Pairwise (fun a b => a.start ≠ b.start) :=
    (hp1.pairwise_iff hsym).mpr hd
  have hd2 : (sortByStart l₂).Pairwise (fun a b => a.start ≠ b.start) :=
    (hp2.pairwise_iff hsym).mpr ((hp.pairwise_iff hsym).mp hd)
  have hs1 : (sortByStart l₁).Pairwise (fun a b : Segment => a.start ≤ b.start) :=
    List.sorted_insertionSort _ l₁
  have hs2 : (sortByStart l₂).Pairwise (fun a b : Segment => a.start ≤ b.start) :=
    List.sorted_insertionSort _ l₂
  apply sorted_lt_unique (hp1.trans (hp.trans hp2.symm))
  · exact (hs1.and hd1).imp fun h => lt_of_le_of_ne h.1 h.2
  · exact (hs2.and hd2).imp fun h => lt_of_le_of_ne h.1 h.2

/-- Behaviour of the window loop when given enough fuel: it ends with a window
reaching `total`, each window end is `min (start + segdur) total`, consecutive
windows satisfy the `end - overlap` recurrence, and the windows cover
`[start, total)`. -/
theorem windowLoop_props (total segdur overlap : ℚ)
    (h1 : 0 < overlap) (h2 : overlap < segdur) :
    ∀ (fuel : ℕ) (start : ℚ), start < total →
      total ≤ start + segdur + (fuel : ℚ) * (segdur - overlap) →
      (∃ l, (windowLoop total segdur overlap (fuel + 1) start).getLast? = some l ∧
          l.2 = total) ∧
      (windowLoop total segdur overlap (fuel + 1) start).head? =
        some (start, min (start + segdur) total) ∧
      (∀ w ∈ windowLoop total segdur overlap (fuel + 1) start,
        w.2 = min (w.1 + segdur) total) ∧
      List.Chain' (fun w w' : ℚ × ℚ => w'.1 = w.2 - overlap)
        (windowLoop total segdur overlap (fuel + 1) start) ∧
      (∀ t : ℚ, start ≤ t → t < total →
        ∃ w ∈ windowLoop total segdur overlap (fuel + 1) start,
          w.1 ≤ t ∧ t < w.2) := by
  intro fuel
  induction fuel with
  | zero =>
    intro start hlt hfuel
    rw [windowLoop]
    have he : min (start + segdur) total = total := by
      rw [min_eq_right]
      simpa using hfuel
    rw [if_pos hlt, he, if_pos (le_refl total)]
    refine ⟨⟨(start, total), rfl, rfl⟩, rfl, ?_, ?_, ?_⟩
    · intro w hw
      simp at hw
      rw [hw, he]
    · simp
    · intro t ht1 ht2
      exact ⟨(start, total), by simp, ht1, ht2⟩
  | succ fuel ih =>
    intro start hlt hfuel
    rw [windowLoop, if_pos hlt]
    by_cases htot : total ≤ min (start + segdur) total
    · rw [if_pos htot]
      have he : min (start + segdur) total = total :=
        le_antisymm (min_le_right _ _) htot
      refine ⟨⟨(start, min (start + segdur) total), rfl, he⟩, rfl, ?_, ?_, ?_⟩
      · intro w hw
        simp at hw
        rw [hw]
      · simp
      · intro t ht1 ht2
        exact ⟨(start, min (start + segdur) total), by simp, ht1, by rw [he]; exact ht2⟩
    · rw [if_neg htot]
      have hlt' : min (start + segdur) total < total := lt_of_not_le htot
      have hside : start + segdur < total := by
        by_contra hcon
        rw [min_eq_right (le_of_not_lt hcon)] at hlt'
        exact lt_irrefl _ hlt'
      have he : min (start + segdur) total = start + segdur :=
        min_eq_left (le_of_lt hside)
      rw [he]
      have hstart' : start + segdur - overlap < total := by linarith
      have hfuel' : total ≤ (start + segdur - overlap) + segdur +
          (fuel : ℚ) * (segdur - overlap) := by
        push_cast at hfuel ⊢
        linarith
      obtain ⟨⟨l, hl, hl2⟩, hhead, hends, hchain, hcov⟩ := ih _ hstart' hfuel'
      cases hL : windowLoop total segdur overlap (fuel + 1) (start + segdur - overlap) with
      | nil =>
        rw [hL] at hhead
        exact absurd hhead (by simp)
      | cons w0 t0 =>
        have hw0 : w0 = (start + segdur - overlap,
            min (start + segdur - overlap + segdur) total) := by
          rw [hL] at hhead
          simpa using hhead
        rw [hL] at hl hends hchain hcov
        refine ⟨⟨l, ?_, hl2⟩, rfl, ?_, ?_, ?_⟩
        · rw [List.getLast?_cons_cons]
          exact hl
        · intro w hw
          cases List.mem_cons.mp hw with
          | inl h => rw [h]; exact he.symm
          | inr h => exact hends w h
        · rw [List.chain'_cons']
          refine ⟨?_, hchain⟩
          intro y hy
          simp only [List.head?_cons, Option.mem_def, Option.some.injEq] at hy
          rw [← hy, hw0]
        · intro t ht1 ht2
          by_cases htw : t < start + segdur
          · exact ⟨(start, start + segdur), by simp, ht1, htw⟩
          · have hts : start + segdur - overlap ≤ t := by
              have := le_of_not_lt htw
              linarith
            obtain ⟨w, hwmem, hw1, hw2⟩ := hcov t hts ht2
            exact ⟨w, List.mem_cons_of_mem _ hwmem, hw1, hw2⟩

/-- `windowFuel` supplies the fuel bound required by `windowLoop_props`. -/
theorem windowFuel_enough (total segdur overlap : ℚ)
    (h1 : 0 < overlap) (h2 : overlap < segdur) (hts : ¬ total ≤ segdur) :
    total ≤ 0 + segdur +
      ((windowFuel total segdur overlap - 1 : ℕ) : ℚ) * (segdur - overlap) := by
  have hd : 0 < segdur - overlap := by linarith
  have hx : 0 < (total - segdur) / (segdur - overlap) :=
    div_pos (by linarith [lt_of_not_le hts]) hd
  have hc : 0 < ⌈(total - segdur) / (segdur - overlap)⌉ := Int.ceil_pos.mpr hx
  have hf : windowFuel total segdur overlap - 1 =
      (⌈(total - segdur) / (segdur - overlap)⌉).toNat := by
    rw [windowFuel]
    omega
  rw [hf]
  have hcast : (((⌈(total - segdur) / (segdur - overlap)⌉).toNat : ℕ) : ℚ) =
      ((⌈(total - segdur) / (segdur - overlap)⌉ : ℤ) : ℚ) := by
    exact_mod_cast congrArg (fun z : ℤ => (z : ℚ)) (Int.toNat_of_nonneg hc.le)
  rw [hcast]
  have hle : (total - segdur) / (segdur - overlap) ≤
      ((⌈(total - segdur) / (segdur - overlap)⌉ : ℤ) : ℚ) := Int.le_ceil _
  have := (div_le_iff₀ hd).mp hle
  linarith

/-- `windowFuel` is a successor. -/
theorem windowFuel_succ (total segdur overlap : ℚ) :
    windowFuel total segdur overlap =
      (windowFuel total segdur overlap - 1) + 1 := by
  rw [windowFuel]
  omega

/-- The fuel value for the 3-window configuration `total=24, segdur=10,
overlap=2`. -/
theorem windowFuel_24 : windowFuel 24 10 2 = 3 := by
  rw [windowFuel]
  norm_num
  rw [show (⌈(7:ℚ)/4⌉ : ℤ) = 2 by rw [Int.ceil_eq_iff] <;> norm_num]
  rfl

/-- If the transcription loop returns `ok`, every window of the matching window
schedule had a successful transcription call. -/
theorem transcribeLoop_ok_windows (total segdur overlap : ℚ)
    (tr : ℚ → ℚ → Except ε (List Segment)) :
    ∀ (fuel : ℕ) (start : ℚ) (out : List Segment),
      transcribeLoop total segdur overlap tr fuel start = .ok out →
      ∀ w ∈ windowLoop total segdur overlap fuel start,
        ∃ segs, tr w.1 w.2 = .ok segs := by
  intro fuel
  induction fuel with
  | zero =>
    intro start out _ w hw
    simp [windowLoop] at hw
  | succ fuel ih =>
    intro start out hok w hw
    simp only [transcribeLoop] at hok
    simp only [windowLoop] at hw
    by_cases hlt : start < total
    · rw [if_pos hlt] at hok hw
      cases htr : tr start (min (start + segdur) total) with
      | error err =>
        simp only [htr] at hok
        exact absurd hok (by simp)
      | ok segs =>
        simp only [htr] at hok
        by_cases htot : total ≤ min (start + segdur) total
        · rw [if_pos htot] at hok hw
          simp at hw
          rw [hw]
          exact ⟨segs, htr⟩
        · rw [if_neg htot] at hok hw
          cases hrec : transcribeLoop total segdur overlap tr fuel
              (min (start + segdur) total - overlap) with
          | error err =>
            simp only [hrec] at hok
            exact absurd hok (by simp)
          | ok rest =>
            cases List.mem_cons.mp hw with
            | inl h =>
              rw [h]
              exact ⟨segs, htr⟩
            | inr h =>
              exact ih _ rest hrec w h
    · rw [if_neg hlt] at hw
      simp at hw

/-- The Bool duplicate-word guard agrees with its declarative reading. -/
theorem wordDup_iff (cur : List Word) (w : Word) :
    wordDup cur w = true ↔
      ∃ v ∈ cur, v.word = w.word ∧ |v.start - w.start| < 0.1 := by
  simp [wordDup, List.any_eq_true]

/-- The merged word list, with the duplicate filter stated declaratively. -/
theorem mergeSegs_words (current next : Segment) :
    (mergeSegs current next).words = current.words ++
      next.words.filter fun w =>
        decide (¬ ∃ v ∈ current.words, v.word = w.word ∧ |v.start - w.start| < 0.1) := by
  simp only [mergeSegs]
  congr 1
  apply List.filter_congr
  intro w _
  by_cases h : ∃ v ∈ current.words, v.word = w.word ∧ |v.start - w.start| < 0.1
  · have hd : wordDup current.words w = true := (wordDup_iff _ _).mpr h
    simp [hd, h]
  · have hd : wordDup current.words w = false := by
      rw [← Bool.not_eq_true]
      exact fun hc => h ((wordDup_iff _ _).mp hc)
    simp [hd, h]

/-- Every part built by the split walk carries a non-empty word list (the
`current_part`/`current_words` accumulators always have equal lengths). -/
theorem splitCore_parts_words_ne :
    ∀ (ws : List Word) (part : List String) (curWords : List Word),
      part.length = curWords.length →
      ∀ p ∈ splitCore ws part curWords, p.2 ≠ [] := by
  intro ws
  induction ws with
  | nil =>
    intro part curWords hlen p hp
    rw [splitCore] at hp
    by_cases he : part.isEmpty
    · rw [if_pos he] at hp
      simp at hp
    · rw [if_neg he] at hp
      simp at hp
      subst hp
      intro hc
      have hc' : curWords = [] := hc
      rw [hc'] at hlen
      simp at hlen
      rw [hlen] at he
      simp at he
  | cons w ws ih =>
    intro part curWords hlen p hp
    rw [splitCore] at hp
    by_cases hpunct : (punctChars.any fun p => w.word.data.contains p) = true
    · rw [if_pos hpunct] at hp
      have hne : ¬ (part ++ [w.word]).isEmpty = true := by
        simp
      rw [if_neg hne] at hp
      cases List.mem_cons.mp hp with
      | inl h =>
        rw [h]
        intro hc
        have hc' : curWords ++ [w] = [] := hc
        simp at hc'
      | inr h => exact ih [] [] rfl p h
    · rw [if_neg hpunct] at hp
      refine ih (part ++ [w.word]) (curWords ++ [w]) ?_ p hp
      simp [hlen]

/-- The split walk over a non-empty word list (or with a pending accumulated
part) produces at least one part. -/
theorem splitCore_ne_nil :
    ∀ (ws : List Word) (part : List String) (curWords : List Word),
      part ≠ [] ∨ ws ≠ [] → splitCore ws part curWords ≠ [] := by
  intro ws
  induction ws with
  | nil =>
    intro part curWords h
    rw [splitCore]
    cases h with
    | inl h =>
      have hne : ¬ part.isEmpty = true := by
        simp [h]
      rw [if_neg hne]
      simp
    | inr h => exact absurd rfl h
  | cons w ws ih =>
    intro part curWords _
    rw [splitCore]
    by_cases hpunct : (punctChars.any fun p => w.word.data.contains p) = true
    · rw [if_pos hpunct]
      have hne : ¬ (part ++ [w.word]).isEmpty = true := by
        simp
      rw [if_neg hne]
      simp
    · rw [if_neg hpunct]
      exact ih (part ++ [w.word]) (curWords ++ [w]) (Or.inl (by simp))

/-- An ordered stream with min-duration segments is sorted by start. -/
theorem chain_start_of_ord :
    ∀ l : List Segment,
      List.Chain' (fun a b => a.«end» ≤ b.start) l →
      (∀ s ∈ l, MIN_DURATION ≤ s.«end» - s.start) →
      List.Chain' (fun a b : Segment => a.start ≤ b.start) l := by
  intro l
  induction l with
  | nil => intro _ _; simp
  | cons a t ih =>
    intro hc hd
    cases t with
    | nil => simp
    | cons b t' =>
      obtain ⟨hab, hc'⟩ := List.chain'_cons.mp hc
      rw [List.chain'_cons]
      constructor
      · have hda := hd a (List.mem_cons_self a _)
        norm_num [MIN_DURATION] at hda
        linarith
      · exact ih hc' fun s hs => hd s (List.mem_cons_of_mem a hs)

/-- The normalization fold is the identity on ordered, within-bounds streams. -/
theorem optLoop_id :
    ∀ (rest : List Segment) (current : Segment),
      List.Chain' (fun a b => a.«end» ≤ b.start) (current :: rest) →
      (∀ s ∈ current :: rest,
        MIN_DURATION ≤ s.«end» - s.start ∧ s.«end» - s.start ≤ MAX_DURATION) →
      optLoop current rest = current :: rest := by
  intro rest
  induction rest with
  | nil =>
    intro current _ hd
    obtain ⟨hmin, hmax⟩ := hd current (List.mem_cons_self current _)
    rw [optLoop, if_neg (not_lt_of_le hmax)]
  | cons seg rest ih =>
    intro current hc hd
    obtain ⟨hmin, hmax⟩ := hd current (List.mem_cons_self current _)
    rw [optLoop]
    rw [if_neg (fun hand => not_lt_of_le hmin hand.1),
      if_neg (not_lt_of_le hmax)]
    have : optLoop seg rest = seg :: rest :=
      ih seg (List.chain'_cons.mp hc).2
        (fun s hs => hd s (List.mem_cons_of_mem current hs))
    rw [this]
    rfl

/-! Claim theorems. -/

/-- C1 counterexample: for the input `[oseg1, oseg2]` (overlap `0.1`, not more
than half the later segment's duration `1.1`), the reconciler keeps both
segments, so adjacent output segments satisfy `end = 1 > 0.9 = start`; applying
`optimize_segments` afterwards returns the same overlapping pair, so the claimed
invariant `segment[i].end <= segment[i+1].start` fails for both stages. -/
theorem ordering_invariant_counterexample :
    (merge_overlapping_segments [oseg1, oseg2]).map
      (fun s => (s.start, s.«end»)) = [(0, 1), (0.9, 2)] ∧
    (optimize_segments (merge_overlapping_segments [oseg1, oseg2])).map
      (fun s => (s.start, s.«end»)) = [(0, 1), (0.9, 2)] ∧
    ¬ ((1:ℚ) ≤ 0.9) := by
  refine ⟨?_, ?_, by norm_num⟩ <;>
    norm_num [merge_overlapping_segments, sortByStart, List.insertionSort,
      List.orderedInsert, mergeLoop, mergeSegs, reassignIds, reassignFrom,
      oseg1, oseg2, optimize_segments, optLoop, MIN_DURATION, MAX_DURATION,
      split_long_segment]

/-- C1 (amended): the output of `_merge_overlapping_segments` is sorted by
start time (`segment[i].start <= segment[i+1].start`); the stronger
non-overlap invariant of the claim does not hold (see the counterexample). -/
theorem reconciler_sorted_by_start (segments : List Segment) :
    List.Chain' (fun a b => a.start ≤ b.start)
      (merge_overlapping_segments segments) := by
  rw [merge_overlapping_segments]
  have hs : List.Sorted (fun a b : Segment => a.start ≤ b.start) (sortByStart segments) :=
    List.sorted_insertionSort _ segments
  cases h : sortByStart segments with
  | nil => simp
  | cons c rest =>
    rw [h] at hs
    have hchain : List.Chain' (fun a b : Segment => a.start ≤ b.start) (c :: rest) :=
      hs.chain'
    have := mergeLoop_chain rest c hchain
    simp only [reassignIds]
    have hmap := reassignFrom_map_start (mergeLoop c rest) 0
    rw [← List.chain'_map (fun s : Segment => s.start)] at this ⊢
    rw [hmap]
    exact this

/-- C2: when adjacent sorted segments overlap by more than half of the later
segment's duration, the fold merges them into one segment whose end is the max
of the two ends, whose text appends the later text (space-separated) unless it
is already a substring, and whose words append exactly the non-duplicate words
(same text and start within strictly less than `0.1`); and the concrete
scenario `[8.0,9.5)` + `[8.3,9.8)` merges into the single segment `[8.0,9.8)`. -/
theorem merge_rule (current next : Segment) (rest : List Segment)
    (h1 : current.«end» ≥ next.start)
    (h2 : current.«end» - next.start > 0.5 * (next.«end» - next.start)) :
    mergeLoop current (next :: rest) = mergeLoop (mergeSegs current next) rest ∧
    (mergeSegs current next).start = current.start ∧
    (mergeSegs current next).«end» = max current.«end» next.«end» ∧
    (next.text.data <:+: current.text.data →
      (mergeSegs current next).text = current.text) ∧
    (¬ next.text.data <:+: current.text.data →
      (mergeSegs current next).text = current.text ++ " " ++ next.text) ∧
    (mergeSegs current next).words = current.words ++
      next.words.filter (fun w =>
        decide (¬ ∃ v ∈ current.words, v.word = w.word ∧ |v.start - w.start| < 0.1)) ∧
    (merge_overlapping_segments [mseg1, mseg2]).map
      (fun s => (s.start, s.«end»)) = [(8, 9.8)] := by
  refine ⟨by rw [mergeLoop, if_pos h1, if_pos h2], rfl, rfl, ?_, ?_,
    mergeSegs_words current next, ?_⟩
  · intro h
    simp [mergeSegs, strIn, h]
  · intro h
    simp [mergeSegs, strIn, h]
  · norm_num [merge_overlapping_segments, sortByStart, List.insertionSort,
      List.orderedInsert, mergeLoop, mergeSegs, reassignIds, reassignFrom,
      strIn, mseg1, mseg2]

/-- C2 witness: the scenario segments `[8.0,9.5)` and `[8.3,9.8)` satisfy the
merge-rule hypotheses, and the merged end is `max 9.5 9.8`. -/
theorem merge_rule_witness :
    mseg1.«end» ≥ mseg2.start ∧
    mseg1.«end» - mseg2.start > 0.5 * (mseg2.«end» - mseg2.start) ∧
    (mergeSegs mseg1 mseg2).«end» = max mseg1.«end» mseg2.«end» :=
  ⟨by norm_num [mseg1, mseg2],
   by norm_num [mseg1, mseg2],
   (merge_rule mseg1 mseg2 []
      (by norm_num [mseg1, mseg2]) (by norm_num [mseg1, mseg2])).2.2.1⟩

/-- C3: for `0 < overlap < segdur` and a non-empty buffer (`0 < total`), the
window schedule is a single window `(0, total)` when `total <= segdur`, and
otherwise starts at 0, has `end = min (start + segdur) total` for every window,
satisfies `start[i+1] = end[i] - overlap`, stops with a window reaching
`total`, and covers `[0, total)` with no gaps. -/
theorem windower_spec (total segdur overlap : ℚ)
    (h0 : 0 < overlap) (h1 : overlap < segdur) (h2 : 0 < total) :
    (total ≤ segdur → windows_of total segdur overlap = [(0, total)]) ∧
    (windows_of total segdur overlap).head? = some (0, min segdur total) ∧
    (∀ w ∈ windows_of total segdur overlap, w.2 = min (w.1 + segdur) total) ∧
    List.Chain' (fun w w' : ℚ × ℚ => w'.1 = w.2 - overlap)
      (windows_of total segdur overlap) ∧
    (∃ l, (windows_of total segdur overlap).getLast? = some l ∧ l.2 = total) ∧
    (∀ t : ℚ, 0 ≤ t → t < total →
      ∃ w ∈ windows_of total segdur overlap, w.1 ≤ t ∧ t < w.2) := by
  rw [windows_of]
  by_cases hts : total ≤ segdur
  · rw [if_pos hts]
    refine ⟨fun _ => rfl, ?_, ?_, ?_, ⟨(0, total), rfl, rfl⟩, ?_⟩
    · rw [min_eq_right hts]
      rfl
    · intro w hw
      simp at hw
      rw [hw]
      simp [min_eq_right hts]
    · simp
    · intro t ht1 ht2
      exact ⟨(0, total), by simp, ht1, ht2⟩
  · rw [if_neg hts]
    have hprops := windowLoop_props total segdur overlap h0 h1
      (windowFuel total segdur overlap - 1) 0 h2
      (windowFuel_enough total segdur overlap h0 h1 hts)
    rw [← windowFuel_succ] at hprops
    obtain ⟨hlast, hhead, hends, hchain, hcov⟩ := hprops
    refine ⟨fun h => absurd h hts, ?_, hends, hchain, hlast, hcov⟩
    rw [hhead, zero_add]

/-- C3 witness: with `total=24, segdur=10, overlap=2` the hypotheses hold and
the point `t = 20` is covered by some window. -/
theorem windower_spec_witness :
    (0:ℚ) < 2 ∧ (2:ℚ) < 10 ∧ (0:ℚ) < 24 ∧ (0:ℚ) ≤ 20 ∧ (20:ℚ) < 24 ∧
    ∃ w ∈ windows_of 24 10 2, w.1 ≤ 20 ∧ 20 < w.2 :=
  ⟨by norm_num, by norm_num, by norm_num, by norm_num, by norm_num,
   (windower_spec 24 10 2 (by norm_num) (by norm_num) (by norm_num)).2.2.2.2.2
     20 (by norm_num) (by norm_num)⟩

/-- C4 counterexample: with 3 windows (starts 0, 8, 16) where only the second
window's transcription raises, `process_audio_segments` returns the error — the
pipeline aborts instead of continuing with windows 1 and 3, whose calls would
have succeeded with segments. -/
theorem lost_window_counterexample :
    wFail 0 10 = .ok [{ id := 0, start := 0, «end» := 10, text := "w", words := [] }] ∧
    wFail 16 24 = .ok [{ id := 0, start := 16, «end» := 24, text := "w", words := [] }] ∧
    process_audio_segments 24 10 2 wFail = .error "boom" := by
  refine ⟨by norm_num [wFail], by norm_num [wFail], ?_⟩
  unfold process_audio_segments
  rw [windowFuel_24]
  norm_num [transcribeLoop, wFail]

/-- C4 (amended): a window failure propagates — `process_audio_segments`
returns `ok` only when every scheduled window's transcription call succeeded,
so a single failing window aborts the whole transcription. -/
theorem process_ok_all_windows (total segdur overlap : ℚ)
    (tr : ℚ → ℚ → Except ε (List Segment)) (out : List Segment)
    (h : process_audio_segments total segdur overlap tr = .ok out) :
    ∀ w ∈ windows_of total segdur overlap, ∃ segs, tr w.1 w.2 = .ok segs := by
  rw [process_audio_segments] at h
  rw [windows_of]
  by_cases hts : total ≤ segdur
  · rw [if_pos hts] at h ⊢
    intro w hw
    simp at hw
    rw [hw]
    exact ⟨out, h⟩
  · rw [if_neg hts] at h ⊢
    cases hres : transcribeLoop total segdur overlap tr
        (windowFuel total segdur overlap) 0 with
    | error err =>
      rw [hres] at h
      exact absurd h (by simp)
    | ok allSegments =>
      exact transcribeLoop_ok_windows total segdur overlap tr _ 0 allSegments hres

/-- C4 witness: an all-succeeding oracle yields an `ok` run, and then the first
window's call indeed succeeded. -/
theorem process_ok_all_windows_witness :
    process_audio_segments 24 10 2 wOk = .ok [] ∧
    ∃ segs, wOk 0 10 = .ok segs := by
  have hok : process_audio_segments 24 10 2 wOk = .ok [] := by
    unfold process_audio_segments
    rw [windowFuel_24]
    norm_num [transcribeLoop, wOk, merge_overlapping_segments, sortByStart]
  refine ⟨hok, ?_⟩
  have hwin : ((0:ℚ), (10:ℚ)) ∈ windows_of 24 10 2 := by
    unfold windows_of
    rw [windowFuel_24]
    norm_num [windowLoop]
  exact process_ok_all_windows 24 10 2 wOk [] hok ((0:ℚ), (10:ℚ)) hwin

/-- C5 counterexample: merging `vsegA = [0,2)` with `vsegB = [1,1.5)` produces
a reconciler output segment with non-empty words whose `end` is `2` while its
last word ends at `1.5`, violating `end == words[-1].end`. -/
theorem word_consistency_counterexample :
    (merge_overlapping_segments [vsegA, vsegB]).map
      (fun s => (s.«end», s.words.map fun w => w.«end»)) = [(2, [2, 1.5])] ∧
    ¬ ((1.5 : ℚ) = 2) := by
  constructor
  · norm_num [merge_overlapping_segments, sortByStart, List.insertionSort,
      List.orderedInsert, mergeLoop, mergeSegs, reassignIds, reassignFrom, strIn,
      wordDup, vsegA, vsegB, vWordA, vWordB]
  · norm_num

/-- C5 (amended): the word-consistency invariant fails on merged reconciler
output (see the counterexample), and the normalizer's split step — the only
step that recomputes `start`/`end`/`text` from `words` — never supplies it:
because the source constructs `TranscriptionSegment` without the required `id`
field, `_split_long_segment` raises `ValidationError` for every segment with a
non-empty word list and returns the empty list for a zero-word segment, so it
never returns a words-bearing segment. -/
theorem split_validation_error (segment : Segment) :
    (segment.words = [] → split_long_segment_checked segment = .ok []) ∧
    (segment.words ≠ [] →
      split_long_segment_checked segment =
        .error "ValidationError: id field required") := by
  constructor
  · intro h
    rw [split_long_segment_checked, h, splitCore]
    rfl
  · intro h
    rw [split_long_segment_checked]
    cases hsc : splitCore segment.words [] [] with
    | nil => exact absurd hsc (splitCore_ne_nil segment.words [] [] (Or.inr h))
    | cons p ps =>
      have hpne : p.2 ≠ [] :=
        splitCore_parts_words_ne segment.words [] [] rfl p
          (hsc ▸ List.mem_cons_self p ps)
      rw [splitBuild]
      cases hp2 : p.2 with
      | nil => exact absurd hp2 hpne
      | cons w ws' => rfl

/-- C5 witness: the zero-word segment `c5empty` splits to `ok []`, while the
words-bearing segment `c5seg` makes the split raise. -/
theorem split_validation_error_witness :
    (c5empty.words = [] ∧ split_long_segment_checked c5empty = .ok []) ∧
    (c5seg.words ≠ [] ∧
      split_long_segment_checked c5seg =
        .error "ValidationError: id field required") :=
  ⟨⟨rfl, (split_validation_error c5empty).1 rfl⟩,
   ⟨by simp [c5seg], (split_validation_error c5seg).2 (by simp [c5seg])⟩⟩

/-- C6: on a stream satisfying the ordering invariant whose segments all have
durations within `[MIN_DURATION, MAX_DURATION]`, `optimize_segments` is the
identity (hence idempotent on already-normalized streams). -/
theorem optimize_identity (l : List Segment)
    (hord : List.Chain' (fun a b => a.«end» ≤ b.start) l)
    (hdur : ∀ s ∈ l,
      MIN_DURATION ≤ s.«end» - s.start ∧ s.«end» - s.start ≤ MAX_DURATION) :
    optimize_segments l = l := by
  have hchain : List.Chain' (fun a b : Segment => a.start ≤ b.start) l :=
    chain_start_of_ord l hord fun s hs => (hdur s hs).1
  have hsorted : List.Sorted (fun a b : Segment => a.start ≤ b.start) l :=
    List.chain'_iff_pairwise.mp hchain
  have hsort : sortByStart l = l := hsorted.insertionSort_eq
  rw [optimize_segments, hsort]
  cases l with
  | nil => rfl
  | cons c rest => exact optLoop_id rest c hord hdur

/-- C6 witness: the normalized stream `[nseg1, nseg2]` (durations 2 and 2,
ordered) is returned unchanged. -/
theorem optimize_identity_witness :
    List.Chain' (fun a b => a.«end» ≤ b.start) [nseg1, nseg2] ∧
    optimize_segments [nseg1, nseg2] = [nseg1, nseg2] := by
  have hord : List.Chain' (fun a b : Segment => a.«end» ≤ b.start) [nseg1, nseg2] := by
    simp [nseg1, nseg2]
    norm_num
  refine ⟨hord, optimize_identity [nseg1, nseg2] hord ?_⟩
  intro s hs
  simp [nseg1, nseg2] at hs
  cases hs with
  | inl h => rw [h]; norm_num [MIN_DURATION, MAX_DURATION, nseg1]
  | inr h => rw [h]; norm_num [MIN_DURATION, MAX_DURATION, nseg2]

/-- C7 counterexample: the zero-word segment `zseg` (duration 6 >
`MAX_DURATION`) is dropped by `optimize_segments` — the output is empty, not
the segment passed through. -/
theorem zero_word_drop_counterexample :
    optimize_segments [zseg] = [] ∧ optimize_segments [zseg] ≠ [zseg] := by
  have h : optimize_segments [zseg] = [] := by
    norm_num [optimize_segments, sortByStart, List.insertionSort, List.orderedInsert,
      optLoop, MAX_DURATION, split_long_segment, splitCore, zseg]
  exact ⟨h, by rw [h]; simp⟩

/-- C7 (amended): `_split_long_segment` returns the empty list for a zero-word
segment, so a zero-word segment longer than `MAX_DURATION` is dropped from the
output rather than passed through. -/
theorem split_empty_words (segment : Segment) (hw : segment.words = []) :
    split_long_segment segment = [] := by
  rw [split_long_segment, hw, splitCore]
  rfl

/-- C7 witness: `zseg` has no words and splits to the empty list. -/
theorem split_empty_words_witness :
    zseg.words = [] ∧ split_long_segment zseg = [] :=
  ⟨rfl, split_empty_words zseg rfl⟩

/-- C8 counterexample: an empty buffer (`total = 0`) is not rejected — the
entry point returns `ok` (the direct-processing result), and no
`InvalidBufferError` is raised (no such error type exists in the code). -/
theorem empty_buffer_counterexample :
    process_audio_segments 0 30 2 trEmpty = Except.ok ([] : List Segment) := by
  norm_num [process_audio_segments, trEmpty]

/-- C8 (amended): for an empty buffer, `total = 0 <= segment_duration`, so
`process_audio_segments` takes the direct-processing path and returns the
result of transcribing the whole (empty) buffer. -/
theorem empty_buffer_direct (segdur overlap : ℚ)
    (tr : ℚ → ℚ → Except ε (List Segment)) (h : (0:ℚ) ≤ segdur) :
    process_audio_segments 0 segdur overlap tr = tr 0 0 := by
  rw [process_audio_segments, if_pos h]

/-- C8 witness: with the default `segment_duration = 30`, the empty buffer is
handed to the whole-buffer transcription call. -/
theorem empty_buffer_direct_witness :
    (0:ℚ) ≤ 30 ∧ process_audio_segments 0 30 2 trEmpty = trEmpty 0 0 :=
  ⟨by norm_num, empty_buffer_direct 30 2 trEmpty (by norm_num)⟩

/-- C9 counterexample: with hint `"auto"` and a detector that answers `"en"` on
the first window and `"zh"` elsewhere, the three windows of `total=24,
segdur=10, overlap=2` use languages `["en", "zh", "zh"]` — the first window's
detection is not reused; later windows re-detect and can differ. -/
theorem language_redetect_counterexample :
    languages_used 24 10 2 dlang (some "auto") = ["en", "zh", "zh"] ∧
    ("zh" : String) ≠ "en" := by
  constructor
  · unfold languages_used windows_of
    rw [windowFuel_24]
    norm_num [windowLoop, resolve_language, dlang]
  · simp

/-- C9 (amended): the language is resolved independently per window — with hint
`none` or `"auto"` every window uses its own detection result, and only an
explicit non-auto hint yields the same language for every window. -/
theorem language_per_window (total segdur overlap : ℚ)
    (detect : ℚ → ℚ → String) (l : String) (hl : l ≠ "auto") :
    languages_used total segdur overlap detect none =
      (windows_of total segdur overlap).map (fun w => detect w.1 w.2) ∧
    languages_used total segdur overlap detect (some "auto") =
      (windows_of total segdur overlap).map (fun w => detect w.1 w.2) ∧
    languages_used total segdur overlap detect (some l) =
      (windows_of total segdur overlap).map (fun _ => l) := by
  refine ⟨rfl, ?_, ?_⟩
  · simp [languages_used, resolve_language]
  · simp [languages_used, resolve_language, hl]

/-- C9 witness: with the explicit hint `"zh"`, every window of the 3-window
configuration uses `"zh"`. -/
theorem language_per_window_witness :
    ("zh" : String) ≠ "auto" ∧
    languages_used 24 10 2 dlang (some "zh") =
      (windows_of 24 10 2).map (fun _ => "zh") :=
  ⟨by simp, (language_per_window 24 10 2 dlang "zh" (by simp)).2.2⟩

/-- C10 counterexample: `pseg1` and `pseg2` share a start time; presenting them
in the two orders gives different reconciler outputs (2 segments vs 1), so the
result is not a function of the input multiset. -/
theorem merge_order_counterexample :
    [pseg1, pseg2].Perm [pseg2, pseg1] ∧
    (merge_overlapping_segments [pseg1, pseg2]).length = 2 ∧
    (merge_overlapping_segments [pseg2, pseg1]).length = 1 := by
  refine ⟨List.Perm.swap _ _ _, ?_, ?_⟩ <;>
    norm_num [merge_overlapping_segments, sortByStart, List.insertionSort,
      List.orderedInsert, mergeLoop, mergeSegs, reassignIds, reassignFrom, strIn,
      wordDup, pseg1, pseg2]

/-- C10 (amended): `_merge_overlapping_segments` is permutation-invariant when
the input's start times are pairwise distinct (the sort then has a unique
result); with equal start times the output can depend on the arrival order
(see the counterexample). -/
theorem merge_perm_invariant {l₁ l₂ : List Segment} (hp : l₁.Perm l₂)
    (hd : l₁.Pairwise fun a b => a.start ≠ b.start) :
    merge_overlapping_segments l₁ = merge_overlapping_segments l₂ := by
  rw [merge_overlapping_segments, merge_overlapping_segments,
    sortByStart_eq_of_perm hp hd]

/-- C10 witness: two distinct-start segments in either order reconcile to the
same output. -/
theorem merge_perm_invariant_witness :
    [qseg1, qseg2].Perm [qseg2, qseg1] ∧
    List.Pairwise (fun a b : Segment => a.start ≠ b.start) [qseg1, qseg2] ∧
    merge_overlapping_segments [qseg1, qseg2] =
      merge_overlapping_segments [qseg2, qseg1] := by
  have hp : [qseg1, qseg2].Perm [qseg2, qseg1] := List.Perm.swap _ _ _
  have hd : List.Pairwise (fun a b : Segment => a.start ≠ b.start) [qseg1, qseg2] := by
    simp [qseg1, qseg2]
  exact ⟨hp, hd, merge_perm_invariant hp hd⟩

end VideoTranscriber
